import Mathlib

/-!
Shallow embedding of the BSAS alignment service (slaclab/bsas), covering the
per-signal ingress queue (`Subscription` in `collect_ca.cpp`), the aligner
(`Collector` in `collector.cpp`) and the table serializer (`PVAReceiver` in
`receiver_pva.cpp`), together with proofs about the claims of the
specification.

Machine integers are modelled as `Nat` with explicit `% 2^32` / `% 2^64`
where the C++ code relies on fixed-width behaviour.  Floating-point values
are never computed with in the modelled code (they are only moved around),
so buffer elements are an abstract inductive `Elem` that distinguishes
integer values, finite float values and NaN.
-/

namespace Bsas

/-- Element type tags, mirroring `epics::pvData::ScalarType` as used by the
sources (`pvByte`, `pvShort`, `pvInt`, `pvUInt`, `pvFloat`, `pvDouble`,
`pvString`). -/
inductive ScalarType where
  | pvByte
  | pvShort
  | pvInt
  | pvUInt
  | pvFloat
  | pvDouble
  | pvString
deriving DecidableEq, Repr

/-- One element of a value buffer.  The C++ code only ever copies elements
(memcpy / putFrom between equal types), so an abstract representation is
exact: `int` for the integer-typed values, `real` for finite float values,
`nan` for float NaN, `str` for strings. -/
inductive Elem where
  | int (z : Int)
  | real (q : Rat)
  | nan
  | str (s : String)
deriving DecidableEq, Repr

/-- `DBRValue::Holder` from `collect_ca.h`: timestamp (two unsigned 32-bit
fields), severity, status, element count and the typed buffer.  A `DBRValue`
whose shared pointer is null is modelled as `Option DBRValue = none` at the
use sites. -/
structure DBRValue where
  ts_sec : Nat
  ts_nsec : Nat
  sevr : Nat
  stat : Nat
  count : Nat
  ftype : ScalarType
  buffer : List Elem
deriving DecidableEq, Repr

/-- The 64-bit composite key `(sec<<32)|nsec` computed in
`Collector::process_dequeue` (collector.cpp:182-184); both timestamp fields
are `epicsUInt32`, so the shift-or is exact addition on their 32-bit
residues. -/
def keyOf (v : DBRValue) : Nat :=
  (v.ts_sec % 2 ^ 32) * 2 ^ 32 + v.ts_nsec % 2 ^ 32

/-! ## Subscription ingress queue (collect_ca.cpp) -/

/-- Mutable state of one `Subscription` (collect_ca.h:86-90): counters,
dynamic `limit` and the `values` deque.  The deque front (list head) is the
oldest element: `pop()` takes `values.front()`, `_push` appends with
`push_back`. -/
structure SubState where
  connected : Bool
  nDisconnects : Nat
  nErrors : Nat
  nUpdates : Nat
  nUpdateBytes : Nat
  nOverflows : Nat
  limit : Nat
  values : List DBRValue
deriving DecidableEq, Repr

/-- The `while(values.size() > limit) { values.pop_back(); nOverflows++; }`
loop at the head of `Subscription::_push` (collect_ca.cpp:207-210), with
explicit fuel; each iteration removes exactly one element, so fuel
`vals.length` never cuts the loop short.  `pop_back` removes the back,
i.e. the NEWEST retained element. -/
def dropOverGo (limit : Nat) : Nat → List DBRValue → Nat → List DBRValue × Nat
  | 0, vals, nOv => (vals, nOv)
  | fuel + 1, vals, nOv =>
    if limit < vals.length then dropOverGo limit fuel vals.dropLast (nOv + 1)
    else (vals, nOv)

/-- The drop loop of `Subscription::_push` run to completion. -/
def dropOver (limit : Nat) (vals : List DBRValue) (nOv : Nat) : List DBRValue × Nat :=
  dropOverGo limit vals.length vals nOv

/-- `Subscription::_push` (collect_ca.cpp:205-214): drop from the back while
over `limit`, then `push_back` the new value.  The test-only public
`Subscription::push` wrapper (collect_ca.cpp:194-202) is the same operation
under the queue mutex. -/
def Subscription_push (st : SubState) (v : DBRValue) : SubState :=
  let r := dropOver st.limit st.values st.nOverflows
  { st with values := r.1 ++ [v], nOverflows := r.2 }

/-- Fold a list of pushes through `Subscription_push`. -/
def pushAll (st : SubState) (vs : List DBRValue) : SubState :=
  vs.foldl Subscription_push st

/-- A decoded channel-access monitor update as it reaches
`Subscription::onEvent` after the DBR decode succeeded. -/
structure CAUpdate where
  sevr : Nat
  stat : Nat
  ts_sec : Nat
  ts_nsec : Nat
  count : Nat
  ftype : ScalarType
  elems : List Elem
deriving DecidableEq, Repr

/-- `dbr_value_size` for the decoded element types: byte 1, short 2,
int/uint 4, float 4, double 8, string MAX_STRING_SIZE = 40 bytes. -/
def elemSize : ScalarType → Nat
  | .pvByte => 1
  | .pvShort => 2
  | .pvInt => 4
  | .pvUInt => 4
  | .pvFloat => 4
  | .pvDouble => 8
  | .pvString => 40

/-- The state update performed by `Subscription::onEvent`
(collect_ca.cpp:341-358) for a successfully decoded non-string update:
build the `DBRValue`, increment `nUpdates`, set
`limit = max(4, count>16 ? collectorCaArrayDepth : collectorCaScalarDepth)`
and `_push` the value.  Note that the function never touches
`nUpdateBytes`. -/
def Subscription_onEvent (scalarDepth arrayDepth : Nat) (st : SubState) (u : CAUpdate) :
    SubState :=
  let val : DBRValue :=
    { ts_sec := u.ts_sec, ts_nsec := u.ts_nsec, sevr := u.sevr, stat := u.stat,
      count := u.count, ftype := u.ftype, buffer := u.elems }
  let st1 := { st with
    nUpdates := st.nUpdates + 1,
    limit := Nat.max 4 (if 16 < u.count then arrayDepth else scalarDepth) }
  Subscription_push st1 val

/-! ## Collector / aligner (collector.cpp) -/

/-- One slot vector of a pending slice: `std::vector<DBRValue>` where an
invalid (null) `DBRValue` is `none`. -/
abbrev Slice := List (Option DBRValue)

/-- `Collector::PV` (collector.h:37-42): per-column `ready` and `connected`
flags (both initially false) plus the column's ingress queue contents at
dequeue time. -/
structure PV where
  ready : Bool
  connected : Bool
  queue : List DBRValue
deriving DecidableEq, Repr

/-- The aligner-thread state of `Collector`: the ordered `events` map
(modelled as a key-sorted association list), `oldest_key`, the batch built
by the current iteration (`completed`) and the `nOverflow` counter. -/
structure CState where
  pvs : List PV
  events : List (Nat × Slice)
  oldest_key : Nat
  completed : List (Nat × Slice)
  nOverflow : Nat
deriving DecidableEq, Repr

/-- `std::vector::resize(n)` on a slice: truncate or pad with invalid
values (collector.cpp:198). -/
def resizeSlice (n : Nat) (sl : Slice) : Slice :=
  sl.take n ++ List.replicate (n - sl.length) none

/-- The duplicate check of collector.cpp:200-207: if `slice[i]` is already
valid the new value is discarded, otherwise it is moved into the slot. -/
def setIfNone (sl : Slice) (i : Nat) (v : DBRValue) : Slice :=
  if (sl.getD i none).isSome then sl else sl.set i (some v)

/-- `events[key]` followed by `slice.resize(pvs.size())` and the
slot-occupancy check (collector.cpp:197-207), on the sorted association
list representing the `std::map`. -/
def insertSlice (n i : Nat) (v : DBRValue) (key : Nat) :
    List (Nat × Slice) → List (Nat × Slice)
  | [] => [(key, setIfNone (resizeSlice n []) i v)]
  | (k, sl) :: rest =>
    if key < k then
      (key, setIfNone (resizeSlice n []) i v) :: (k, sl) :: rest
    else if key = k then
      (k, setIfNone (resizeSlice n sl) i v) :: rest
    else
      (k, sl) :: insertSlice n i v key rest

/-- One column's turn inside the dequeue loop body
(collector.cpp:168-216).  Returns the new state and whether a value was
popped (the value contributing `nothing = false`). -/
def colStep (st : CState) (i : Nat) : CState × Bool :=
  match st.pvs[i]? with
  | none => (st, false)
  | some pv =>
    if i ≠ 0 ∧ pv.ready = false then (st, false)
    else
      match pv.queue with
      | [] => ({ st with pvs := st.pvs.set i { pv with ready := false } }, false)
      | v :: rest =>
        let conn := decide (v.sevr ≤ 3)
        let key := keyOf v
        let st1 := { st with
          pvs := st.pvs.set i { pv with ready := true, connected := conn, queue := rest } }
        if conn = true ∧ st.oldest_key < key then
          ({ st1 with events := insertSlice st.pvs.length i v key st.events }, true)
        else
          (st1, true)

/-- Fold step threading the `nothing` flag through the per-column loop. -/
def roundStep (acc : CState × Bool) (i : Nat) : CState × Bool :=
  let r := colStep acc.1 i
  (r.1, acc.2 && !r.2)

/-- One full pass of the inner `for` loop over all columns with
`nothing = true` at entry (collector.cpp:164-216). -/
def dequeueRound (st : CState) : CState × Bool :=
  (List.range st.pvs.length).foldl roundStep (st, true)

/-- The state in the middle of a dequeue round, after the first `j`
columns of the `for` loop have been handled. -/
def roundPrefix (j : Nat) (st : CState) : CState :=
  (((List.range st.pvs.length).take j).foldl roundStep (st, true)).1

/-- The `while(!nothing && events.size() < maxEvents)` loop of
`Collector::process_dequeue` (collector.cpp:163-217).  The fuel only
bounds the recursion; `process_dequeue` supplies enough fuel that it never
cuts the loop short (each round that clears `nothing` pops at least one
queued value). -/
def dequeueLoop (maxEvents : Nat) : Nat → CState → Bool → CState × Bool
  | 0, st, nothing => (st, nothing)
  | fuel + 1, st, nothing =>
    if nothing = false ∧ st.events.length < maxEvents then
      let r := dequeueRound st
      dequeueLoop maxEvents fuel r.1 r.2
    else
      (st, nothing)

/-- Total number of queued values over all columns. -/
def totalQueue (st : CState) : Nat :=
  (st.pvs.map (fun pv => pv.queue.length)).sum

/-- Modelled from the spec: `Subscription::clear(keep)` is called by
`Collector::process_dequeue` (collector.cpp:227) but is not defined
anywhere in the sources; the spec says it "retains only the newest `keep`
items".  The newest items are at the deque back, i.e. the list tail. -/
def clearKeep (keep : Nat) (vals : List DBRValue) : List DBRValue :=
  vals.drop (vals.length - keep)

/-- `Collector::process_dequeue` (collector.cpp:155-234): run the loop,
then, if it stopped with work left (`!nothing`), increment `nOverflow` and
truncate every column queue to the newest 4 entries. -/
def process_dequeue (maxEvents : Nat) (st : CState) : CState :=
  let r := dequeueLoop maxEvents (totalQueue st + 1) st false
  if r.2 = false then
    { r.1 with
      nOverflow := r.1.nOverflow + 1,
      pvs := r.1.pvs.map (fun pv => { pv with queue := clearKeep 4 pv.queue }) }
  else
    r.1

/-- Conversion of a `Nat` holding a 64-bit unsigned value to the signed
64-bit interpretation, as done by `epicsInt64(now_key)` etc. in
collector.cpp:252. -/
def toSigned64 (n : Nat) : Int :=
  if n % 2 ^ 64 < 2 ^ 63 then ((n % 2 ^ 64 : Nat) : Int)
  else ((n % 2 ^ 64 : Nat) : Int) - 2 ^ 64

/-- Wrapping of an `Int` into the signed 64-bit range, modelling `Int64`
subtraction overflow. -/
def wrap64 (z : Int) : Int :=
  (z + 2 ^ 63) % 2 ^ 64 - 2 ^ 63

/-- The age test of collector.cpp:252-254:
`epicsInt64(now_key) - epicsInt64(key) >= epicsInt64(max_age)` computed in
signed 64-bit arithmetic. -/
def agedB (now_key key max_age : Nat) : Bool :=
  decide (toSigned64 max_age ≤ wrap64 (toSigned64 now_key - toSigned64 key))

/-- The completeness test of collector.cpp:269-279: every column is either
disconnected or has a valid slot. -/
def isComplete (pvs : List PV) (sl : Slice) : Bool :=
  (List.range pvs.length).all fun i =>
    !(pvs.getD i { ready := false, connected := false, queue := [] }).connected
      || (sl.getD i none).isSome

/-- The reverse scan of collector.cpp:246-288 searching for
`first_partial`.  The argument list is `events` reversed (newest first);
`total` is `events.size()`.  Result: the number of entries (counted from
the oldest end) that will be flushed. -/
def scanFlush (pvs : List PV) (now_key max_age total : Nat) :
    List (Nat × Slice) → Nat
  | [] => total
  | (k, sl) :: rest =>
    if agedB now_key k max_age then total
    else if isComplete pvs sl then scanFlush pvs now_key max_age total rest
    else rest.length

/-- `Collector::process_test` (collector.cpp:236-326): find the flush
boundary, emit everything older than it into `completed` (updating
`oldest_key` to the largest emitted key), then drop the oldest remaining
slices until at most 4 are pending, incrementing `nOverflow` for each
drop. -/
def process_test (now_key max_age : Nat) (st : CState) : CState :=
  let fc := scanFlush st.pvs now_key max_age st.events.length st.events.reverse
  let emitted := st.events.take fc
  let remaining := st.events.drop fc
  let ok1 := match emitted.getLast? with
    | some e => e.1
    | none => st.oldest_key
  let dropped := remaining.length - 4
  { st with
    events := remaining.drop dropped,
    oldest_key := ok1,
    completed := emitted,
    nOverflow := st.nOverflow + dropped }

/-- Environment input for one aligner iteration: the contents each column
queue holds when the iteration drains it (adversarial: any interleaving of
source pushes and overflow drops can produce any contents), the `ready`
flags set by `Collector::notEmpty` since the previous iteration, the wall
clock key and the tunables `maxEventAge` (converted to composite form) and
`maxEvents` read for this iteration. -/
structure EnvIn where
  queues : List (List DBRValue)
  ready : List Bool
  now_key : Nat
  max_age : Nat
  maxEvents : Nat
deriving DecidableEq, Repr

/-- Install the environment's queue contents and ready flags for one
iteration.  Aligner-owned state (`events`, `oldest_key`, `completed`,
per-column `connected`) is untouched. -/
def applyEnv (e : EnvIn) (st : CState) : CState :=
  { st with
    pvs := (List.range st.pvs.length).map fun i =>
      let pv := st.pvs.getD i { ready := false, connected := false, queue := [] }
      { pv with
        queue := e.queues.getD i [],
        ready := e.ready.getD i pv.ready } }

/-- One iteration of `Collector::process` (collector.cpp:114-152): drain
the queues, then run the expiry test; `completed` of the result is the
batch handed to every receiver via `Receiver::slices`. -/
def iterate (st : CState) (e : EnvIn) : CState :=
  process_test e.now_key e.max_age (process_dequeue e.maxEvents (applyEnv e st))

/-- Aligner state just before the `n`-th iteration of a run. -/
def stateBefore (st : CState) (es : List EnvIn) (n : Nat) : CState :=
  (es.take n).foldl iterate st

/-- The batch delivered by the `n`-th iteration of a run (`n < es.length`). -/
def batchAt (st : CState) (es : List EnvIn) (n : Nat) : List (Nat × Slice) :=
  (stateBefore st es (n + 1)).completed

/-- Decidable per-slot form of the slice invariant: a valid slot value has
severity at most 3 and its timestamp key equals the slice key. -/
def slotOk (k : Nat) (ov : Option DBRValue) : Bool :=
  match ov with
  | none => true
  | some x => decide (x.sevr ≤ 3) && decide (keyOf x = k)

/-- Aligner-state invariant: `events` is key-sorted (it models a
`std::map`), every pending key is beyond `oldest_key`, and every valid
slot in a pending slice satisfies `slotOk`. -/
def Inv (st : CState) : Prop :=
  st.events.Pairwise (fun a b => a.1 < b.1) ∧
  (∀ e ∈ st.events, st.oldest_key < e.1) ∧
  (∀ e ∈ st.events, ∀ ov ∈ e.2, slotOk e.1 ov = true)

instance (st : CState) : Decidable (Inv st) := by
  unfold Inv
  infer_instance

/-! ## PVAReceiver table serializer (receiver_pva.cpp) -/

/-- Which copier implementation is bound to a column
(receiver_pva.cpp:279-293): `NumericScalarCopier` for the supported scalar
types, `NumericArrayCopier` for array columns. -/
inductive CopyKind where
  | scalar
  | array
deriving DecidableEq, Repr

/-- `PVAReceiver::Column` (receiver_pva.h): mangled field name, current
element type and shape, the `last` value used for backfill, and the bound
copier. -/
structure RColumn where
  fname : String
  ftype : ScalarType
  isarray : Bool
  last : Option DBRValue
  copier : Option CopyKind
deriving DecidableEq, Repr

/-- One column of the built output structure: field name plus whether it
was emitted as `addArray(fname, ftype)` (scalar column) or as the nested
union-array `addNestedUnionArray(fname)->addArray("arr", ftype)`
(receiver_pva.cpp:247-256). -/
structure SchemaCol where
  fname : String
  ftype : ScalarType
  isarray : Bool
deriving DecidableEq, Repr

/-- Data a copier wrote into its bound field during one batch. -/
inductive ColData where
  | scalars (xs : List Elem)
  | unions (xs : List (Option (List Elem)))
deriving DecidableEq, Repr

/-- One `pv->post(*root, changed)` (receiver_pva.cpp:323): the schema the
root had, the timestamp arrays, and per column the freshly replaced data
(`none` when the column's copier aborted or was absent, leaving the field
unchanged and not marked in `changed`). -/
structure PostRec where
  schema : List SchemaCol
  sec : List Nat
  nsec : List Nat
  cols : List (Option ColData)
deriving DecidableEq, Repr

/-- Serializer state: the columns, the global `retype` flag and the
current output schema, plus the list of posts made so far. -/
structure RState where
  columns : List RColumn
  retype : Bool
  schema : List SchemaCol
  posts : List PostRec
deriving DecidableEq, Repr

/-- `default_value<T>::is()` from receiver_pva.cpp:35-39: zero for the
integer types, NaN for float and double, the empty string for strings. -/
def default_value : ScalarType → Elem
  | .pvByte => .int 0
  | .pvShort => .int 0
  | .pvInt => .int 0
  | .pvUInt => .int 0
  | .pvFloat => .nan
  | .pvDouble => .nan
  | .pvString => .str ""

/-- Loop state of `NumericScalarCopier::copy` (receiver_pva.cpp:56-101):
the column's `last` value, its (mutable) type/shape, the scratch output
vector, the observed `receiver.retype`, and whether the copy returned
early. -/
structure SCst where
  last : Option DBRValue
  ftype : ScalarType
  isarray : Bool
  scratch : List Elem
  rt : Bool
  aborted : Bool
deriving DecidableEq, Repr

/-- One row of `NumericScalarCopier::copy` (receiver_pva.cpp:61-97):
backfill an absent cell from `last`; an absent or `sevr > 3` cell swaps
into `last` and leaves the default in `scratch`; a cell whose count is not
1 or whose element type differs from the column's triggers the retype path
(update column type/shape, set `retype`, clear `last`, return); otherwise
copy element 0 and clear `last` (no scalar backfill). -/
def scalarCopyStep (coln : Nat) (acc : SCst) (rc : Nat × (Nat × Slice)) : SCst :=
  if acc.aborted then acc
  else
    let cell0 := (rc.2.2.getD coln none)
    let cell := if cell0.isNone && acc.last.isSome then acc.last else cell0
    match cell with
    | none => { acc with last := none }
    | some v =>
      if 3 < v.sevr then { acc with last := some v }
      else if v.count ≠ 1 ∨ v.ftype ≠ acc.ftype then
        { acc with
          ftype := v.ftype, isarray := decide (v.count ≠ 1),
          rt := true, last := none, aborted := true }
      else
        { acc with
          scratch := acc.scratch.set rc.1 (v.buffer.headD (default_value acc.ftype)),
          last := none }

/-- `NumericScalarCopier::copy` over a whole batch: scratch starts as
`s.size()` copies of the bound type's default; on completion the field is
replaced and marked changed (`some` data), on early return it is not
(`none`). -/
def scalarCopy (c : RColumn) (coln : Nat) (s : List (Nat × Slice)) :
    RColumn × Option ColData × Bool :=
  let fin := s.enum.foldl (scalarCopyStep coln)
    { last := c.last, ftype := c.ftype, isarray := c.isarray,
      scratch := List.replicate s.length (default_value c.ftype),
      rt := false, aborted := false }
  ({ c with last := fin.last, ftype := fin.ftype, isarray := fin.isarray },
   if fin.aborted then none else some (.scalars fin.scratch),
   fin.rt)

/-- Loop state of `NumericArrayCopier::copy` (receiver_pva.cpp:123-168). -/
structure ACst where
  last : Option DBRValue
  scratch : List (Option (List Elem))
  rt : Bool
  aborted : Bool
deriving DecidableEq, Repr

/-- One row of `NumericArrayCopier::copy` (receiver_pva.cpp:130-164): same
backfill and disconnect handling as the scalar copier; a type mismatch
sets `retype`, clears `last` and returns (the column type stays the bound
array element type); a successful copy stores the whole buffer and RETAINS
the cell in `last` (array backfill persists across rows). -/
def arrayCopyStep (ftype : ScalarType) (coln : Nat) (acc : ACst) (rc : Nat × (Nat × Slice)) :
    ACst :=
  if acc.aborted then acc
  else
    let cell0 := (rc.2.2.getD coln none)
    let cell := if cell0.isNone && acc.last.isSome then acc.last else cell0
    match cell with
    | none => { acc with last := none }
    | some v =>
      if 3 < v.sevr then { acc with last := some v }
      else if v.ftype ≠ ftype then
        { acc with rt := true, last := none, aborted := true }
      else
        { acc with scratch := acc.scratch.set rc.1 (some v.buffer), last := some v }

/-- `NumericArrayCopier::copy` over a whole batch: scratch starts as
`s.size()` null unions. -/
def arrayCopy (c : RColumn) (coln : Nat) (s : List (Nat × Slice)) :
    RColumn × Option ColData × Bool :=
  let fin := s.enum.foldl (arrayCopyStep c.ftype coln)
    { last := c.last, scratch := List.replicate s.length none,
      rt := false, aborted := false }
  ({ c with last := fin.last },
   if fin.aborted then none else some (.unions fin.scratch),
   fin.rt)

/-- Copier rebinding during the retype block (receiver_pva.cpp:279-293):
scalar double/int/uint columns get a scalar copier, array columns get the
array copier; anything else keeps whatever copier it had ("TODO: not
supported" leaves `col.copier` unassigned). -/
def bindCopierK (c : RColumn) : RColumn :=
  if c.isarray = false ∧ (c.ftype = .pvDouble ∨ c.ftype = .pvInt ∨ c.ftype = .pvUInt) then
    { c with copier := some .scalar }
  else if c.isarray then
    { c with copier := some .array }
  else
    c

/-- The schema built by the retype block (receiver_pva.cpp:242-264) from
the columns' current types and shapes. -/
def buildSchema (cols : List RColumn) : List SchemaCol :=
  cols.map fun c => { fname := c.fname, ftype := c.ftype, isarray := c.isarray }

/-- Dispatch over the bound copier inside the per-column loop
(receiver_pva.cpp:314-319); a column without a copier is skipped. -/
def runCopier (s : List (Nat × Slice)) (coln : Nat) (c : RColumn) :
    RColumn × Option ColData × Bool :=
  match c.copier with
  | none => (c, none, false)
  | some .scalar => scalarCopy c coln s
  | some .array => arrayCopy c coln s

/-- Character mangling of `mangleName` (receiver_pva.cpp:18-33): keep
`[A-Za-z_]` anywhere and digits beyond position 0, replace everything else
with an underscore. -/
def mangleChar (pos : Nat) (c : Char) : Char :=
  if ('A' ≤ c ∧ c ≤ 'Z') ∨ ('a' ≤ c ∧ c ≤ 'z') ∨ (pos ≠ 0 ∧ '0' ≤ c ∧ c ≤ '9') ∨ c = '_'
  then c else '_'

/-- `mangleName` applied to a whole name. -/
def mangleName (s : String) : String :=
  String.mk (s.data.enum.map fun pc => mangleChar pc.1 pc.2)

/-- `PVAReceiver::names` (receiver_pva.cpp:198-229): fresh columns (scalar
double until proven otherwise, no copier bound yet), `retype` set, root
dropped. -/
def namesStep (pvnames : List String) : RState :=
  { columns := pvnames.map fun n =>
      { fname := mangleName n, ftype := .pvDouble, isarray := false,
        last := none, copier := none },
    retype := true, schema := [], posts := [] }

/-- `POSIX_TIME_AT_EPICS_EPOCH`. -/
def posixTimeAtEpicsEpoch : Nat := 631152000

/-- `PVAReceiver::slices` (receiver_pva.cpp:231-334): if `retype` is set,
rebuild the schema from the current column types/shapes and rebind the
copiers, clearing `retype`; fill the `secondsPastEpoch` / `nanoseconds`
arrays from the slice keys; run every bound copier (any of which may set
`retype` again and abort its own column); finally post the batch under the
current schema. -/
def slicesStep (st : RState) (s : List (Nat × Slice)) : RState :=
  let cols0 := if st.retype then st.columns.map bindCopierK else st.columns
  let schema0 := if st.retype then buildSchema st.columns else st.schema
  let sec := s.map fun rc => (rc.1 / 2 ^ 32 + posixTimeAtEpicsEpoch) % 2 ^ 32
  let nsec := s.map fun rc => rc.1 % 2 ^ 32
  let res := cols0.enum.foldl
    (fun (acc : List RColumn × List (Option ColData) × Bool) ci =>
      let r := runCopier s ci.1 ci.2
      (acc.1 ++ [r.1], acc.2.1 ++ [r.2.1], acc.2.2 || r.2.2))
    ([], [], false)
  { columns := res.1,
    retype := res.2.2,
    schema := schema0,
    posts := st.posts ++ [{ schema := schema0, sec := sec, nsec := nsec, cols := res.2.1 }] }

/-! ## Concrete fixtures (spec scenarios) -/

/-- A scalar double value with timestamp `(1, n)` holding `n`. -/
def mkV (n : Nat) : DBRValue :=
  { ts_sec := 1, ts_nsec := n, sevr := 0, stat := 0, count := 1,
    ftype := .pvDouble, buffer := [.real (n : Rat)] }

/-- A fresh subscription whose dynamic limit has settled at 4
(`scalarDepth = 4`, scenario 5 of the spec). -/
def sub4 : SubState :=
  { connected := true, nDisconnects := 0, nErrors := 0, nUpdates := 0,
    nUpdateBytes := 0, nOverflows := 0, limit := 4, values := [] }

/-- Ten values pushed in order, scenario 5 of the spec. -/
def pushVals : List DBRValue := (List.range 10).map fun k => mkV (k + 1)

/-- A just-constructed subscription (ctor sets `limit(16)`). -/
def subFresh : SubState := { sub4 with limit := 16 }

/-- A successfully decoded scalar `DBR_TIME_DOUBLE` update (element size
8, count 1). -/
def dblUpdate : CAUpdate :=
  { sevr := 0, stat := 0, ts_sec := 100, ts_nsec := 7, count := 1,
    ftype := .pvDouble, elems := [.real 5] }

/-- `foo` update at `T0 = 0x10001:0x2` with value 1.0 (spec scenario 2). -/
def fooT0 : DBRValue :=
  { ts_sec := 0x10001, ts_nsec := 0x2, sevr := 0, stat := 0, count := 1,
    ftype := .pvDouble, buffer := [.real 1] }

/-- `foo` update at `T1 = 0x10001:0x3` with value 3.0 (spec scenario 2). -/
def fooT1 : DBRValue :=
  { ts_sec := 0x10001, ts_nsec := 0x3, sevr := 0, stat := 0, count := 1,
    ftype := .pvDouble, buffer := [.real 3] }

/-- Two-column collector at startup: both `ready` and `connected`
initialised false (`Collector::PV` constructor), nothing pending. -/
def twoColInit : CState :=
  { pvs := [{ ready := false, connected := false, queue := [] },
            { ready := false, connected := false, queue := [] }],
    events := [], oldest_key := 0, completed := [], nOverflow := 0 }

/-- One iteration's environment for spec scenario 2: two values queued on
column 0 (`foo`), nothing ever arrives on column 1 (`bar`), defaults
`eventAge = 2.5 s` and `maxEvents = 40`. -/
def twoColEnv : EnvIn :=
  { queues := [[fooT0, fooT1], []], ready := [false, false],
    now_key := keyOf fooT1 + 5,
    max_age := 2 * 2 ^ 32 + 500000000,
    maxEvents := 40 }

/-- A scalar double value `q` with timestamp `(k, 0)`. -/
def vDbl (q : Rat) (k : Nat) : DBRValue :=
  { ts_sec := k, ts_nsec := 0, sevr := 0, stat := 0, count := 1,
    ftype := .pvDouble, buffer := [.real q] }

/-- An i32 array value of count 8 with timestamp `(k, 0)` (spec
scenario 6). -/
def vIntArr (k : Nat) : DBRValue :=
  { ts_sec := k, ts_nsec := 0, sevr := 0, stat := 0, count := 8,
    ftype := .pvInt, buffer := (List.range 8).map fun z => .int z }

/-- Serializer right after `names(["foo","bar"])`. -/
def rstate0 : RState := namesStep ["foo", "bar"]

/-- After the constructor's initial `slices({})` call, which performs the
first retype and opens the two-scalar-double schema. -/
def rstate1 : RState := slicesStep rstate0 []

/-- The batch in which column 0 (an f64 scalar column) receives an i32
array of count 8. -/
def batchMix : List (Nat × Slice) :=
  [(keyOf (vIntArr 5), [some (vIntArr 5), some (vDbl 2 5)])]

/-- After the transitional `slices` call on `batchMix`. -/
def rstate2 : RState := slicesStep rstate1 batchMix

/-- The following batch, delivered after the retype. -/
def batchNext : List (Nat × Slice) :=
  [(keyOf (vIntArr 6), [some (vIntArr 6), some (vDbl 4 6)])]

/-- After the post-retype `slices` call on `batchNext`. -/
def rstate3 : RState := slicesStep rstate2 batchNext

/-- An old value whose key is 5. -/
def vOld : DBRValue :=
  { ts_sec := 0, ts_nsec := 5, sevr := 0, stat := 0, count := 1,
    ftype := .pvDouble, buffer := [.real 1] }

/-- An age-expired pending slice that is still partial (column 1
missing while connected). -/
def agedPartial : Nat × Slice := (keyOf vOld, [some vOld, none])

/-- A recent, complete pending slice. -/
def freshComplete : Nat × Slice := (keyOf fooT0, [some fooT0, some fooT0])

/-- Collector state holding an aged partial slice below a fresh complete
one, both columns connected. -/
def agedState : CState :=
  { pvs := [{ ready := false, connected := true, queue := [] },
            { ready := false, connected := true, queue := [] }],
    events := [agedPartial, freshComplete],
    oldest_key := 0, completed := [], nOverflow := 0 }

/-- A scalar double column bound to a scalar copier. -/
def colDbl : RColumn :=
  { fname := "foo", ftype := .pvDouble, isarray := false, last := none,
    copier := some .scalar }

/-- An i32 array column bound to the array copier. -/
def colIntArr : RColumn :=
  { fname := "foo", ftype := .pvInt, isarray := true, last := none,
    copier := some .array }

/-- A connected value whose key (7) is behind `oldest_key` (spec
scenario 4: late arrival). -/
def lateVal : DBRValue :=
  { ts_sec := 0, ts_nsec := 7, sevr := 0, stat := 0, count := 1,
    ftype := .pvDouble, buffer := [.real 9] }

/-- A one-column collector that has already emitted up to key 100, with
the late value queued. -/
def lateState : CState :=
  { pvs := [{ ready := true, connected := true, queue := [lateVal] }],
    events := [], oldest_key := 100, completed := [], nOverflow := 0 }

/-- Environment delivering the late value to the aligner. -/
def lateEnv : EnvIn :=
  { queues := [[lateVal]], ready := [true],
    now_key := keyOf fooT1 + 5,
    max_age := 2 * 2 ^ 32 + 500000000,
    maxEvents := 40 }

/-! ## Lemmas: slice insertion -/

theorem mem_insertSlice {n i : Nat} {v : DBRValue} {key : Nat} :
    ∀ {l : List (Nat × Slice)} {e : Nat × Slice},
      e ∈ insertSlice n i v key l → e.1 = key ∨ e ∈ l := by
  intro l
  induction l with
  | nil =>
    intro e he
    simp only [insertSlice, List.mem_singleton] at he
    subst he
    exact Or.inl rfl
  | cons hd tl ih =>
    intro e he
    obtain ⟨k, sl⟩ := hd
    simp only [insertSlice] at he
    by_cases h1 : key < k
    · simp only [if_pos h1, List.mem_cons] at he
      rcases he with he | he | he
      · subst he; exact Or.inl rfl
      · exact Or.inr (by simp [he])
      · exact Or.inr (List.mem_cons_of_mem _ he)
    · simp only [if_neg h1] at he
      by_cases h2 : key = k
      · simp only [if_pos h2, List.mem_cons] at he
        rcases he with he | he
        · subst he; exact Or.inl h2.symm
        · exact Or.inr (List.mem_cons_of_mem _ he)
      · simp only [if_neg h2, List.mem_cons] at he
        rcases he with he | he
        · exact Or.inr (by simp [he])
        · rcases ih he with h | h
          · exact Or.inl h
          · exact Or.inr (List.mem_cons_of_mem _ h)

theorem insertSlice_sorted {n i : Nat} {v : DBRValue} {key : Nat} :
    ∀ {l : List (Nat × Slice)},
      l.Pairwise (fun a b => a.1 < b.1) →
      (insertSlice n i v key l).Pairwise (fun a b => a.1 < b.1) := by
  intro l
  induction l with
  | nil =>
    intro _
    simp [insertSlice]
  | cons hd tl ih =>
    intro hp
    obtain ⟨k, sl⟩ := hd
    rw [List.pairwise_cons] at hp
    obtain ⟨hk, htl⟩ := hp
    simp only [insertSlice]
    by_cases h1 : key < k
    · rw [if_pos h1, List.pairwise_cons]
      constructor
      · intro b hb
        rcases List.mem_cons.mp hb with hb | hb
        · subst hb; exact h1
        · exact lt_trans h1 (hk b hb)
      · rw [List.pairwise_cons]
        exact ⟨hk, htl⟩
    · rw [if_neg h1]
      by_cases h2 : key = k
      · rw [if_pos h2, List.pairwise_cons]
        exact ⟨hk, htl⟩
      · rw [if_neg h2, List.pairwise_cons]
        constructor
        · intro b hb
          rcases mem_insertSlice hb with h | h
          · rw [h]; omega
          · exact hk b h
        · exact ih htl

theorem insertSlice_gt {n i : Nat} {v : DBRValue} {key ok : Nat} :
    ∀ {l : List (Nat × Slice)},
      ok < key → (∀ e ∈ l, ok < e.1) →
      ∀ e ∈ insertSlice n i v key l, ok < e.1 := by
  intro l hok hall e he
  rcases mem_insertSlice he with h | h
  · rw [h]; exact hok
  · exact hall e h

theorem slotOk_resize {k : Nat} {sl : Slice} {n : Nat}
    (h : ∀ ov ∈ sl, slotOk k ov = true) :
    ∀ ov ∈ resizeSlice n sl, slotOk k ov = true := by
  intro ov hov
  rcases List.mem_append.mp hov with hov | hov
  · exact h ov (List.take_subset n sl hov)
  · rw [List.eq_of_mem_replicate hov]
    rfl

theorem slotOk_setIfNone {k : Nat} {sl : Slice} {i : Nat} {v : DBRValue}
    (h : ∀ ov ∈ sl, slotOk k ov = true) (hv : slotOk k (some v) = true) :
    ∀ ov ∈ setIfNone sl i v, slotOk k ov = true := by
  intro ov hov
  unfold setIfNone at hov
  split at hov
  · exact h ov hov
  · rcases List.mem_or_eq_of_mem_set hov with h1 | h1
    · exact h ov h1
    · rw [h1]; exact hv

theorem insertSlice_slots {n i : Nat} {v : DBRValue} {key : Nat}
    (hv : v.sevr ≤ 3) (hkey : keyOf v = key) :
    ∀ {l : List (Nat × Slice)},
      (∀ e ∈ l, ∀ ov ∈ e.2, slotOk e.1 ov = true) →
      ∀ e ∈ insertSlice n i v key l, ∀ ov ∈ e.2, slotOk e.1 ov = true := by
  have hsv : slotOk key (some v) = true := by
    simp [slotOk, hv, hkey]
  intro l
  induction l with
  | nil =>
    intro _ e he
    simp only [insertSlice, List.mem_singleton] at he
    subst he
    exact slotOk_setIfNone (slotOk_resize (by intro ov h; simp at h)) hsv
  | cons hd tl ih =>
    intro hall e he
    obtain ⟨k, sl⟩ := hd
    simp only [insertSlice] at he
    by_cases h1 : key < k
    · simp only [if_pos h1, List.mem_cons] at he
      rcases he with he | he | he
      · subst he
        exact slotOk_setIfNone (slotOk_resize (by intro ov h; simp at h)) hsv
      · exact hall e (by simp [he])
      · exact hall e (List.mem_cons_of_mem _ he)
    · simp only [if_neg h1] at he
      by_cases h2 : key = k
      · simp only [if_pos h2, List.mem_cons] at he
        rcases he with he | he
        · subst he
          subst h2
          exact slotOk_setIfNone
            (slotOk_resize (hall (key, sl) (by simp))) hsv
        · exact hall e (List.mem_cons_of_mem _ he)
      · simp only [if_neg h2, List.mem_cons] at he
        rcases he with he | he
        · exact hall e (by simp [he])
        · exact ih (fun e2 he2 => hall e2 (List.mem_cons_of_mem _ he2)) e he

theorem insertSlice_length {n i : Nat} {v : DBRValue} {key : Nat} :
    ∀ {l : List (Nat × Slice)},
      (insertSlice n i v key l).length ≤ l.length + 1 := by
  intro l
  induction l with
  | nil => simp [insertSlice]
  | cons hd tl ih =>
    obtain ⟨k, sl⟩ := hd
    simp only [insertSlice]
    by_cases h1 : key < k
    · simp [if_pos h1]
    · rw [if_neg h1]
      by_cases h2 : key = k
      · simp [if_pos h2]
      · rw [if_neg h2]
        simpa using Nat.succ_le_succ ih

/-! ## Lemmas: dequeue phase -/

theorem colStep_frame (st : CState) (i : Nat) :
    (colStep st i).1.oldest_key = st.oldest_key ∧
    (colStep st i).1.completed = st.completed ∧
    (colStep st i).1.nOverflow = st.nOverflow ∧
    (colStep st i).1.pvs.length = st.pvs.length ∧
    (colStep st i).1.events.length ≤ st.events.length + 1 := by
  unfold colStep
  split
  · exact ⟨rfl, rfl, rfl, rfl, Nat.le_succ _⟩
  · split
    · exact ⟨rfl, rfl, rfl, rfl, Nat.le_succ _⟩
    · split
      · exact ⟨rfl, rfl, rfl, by simp, Nat.le_succ _⟩
      · dsimp only
        split
        · exact ⟨rfl, rfl, rfl, by simp, insertSlice_length⟩
        · exact ⟨rfl, rfl, rfl, by simp, Nat.le_succ _⟩

theorem colStep_inv (st : CState) (i : Nat) (h : Inv st) : Inv (colStep st i).1 := by
  obtain ⟨hs, hg, hsl⟩ := h
  unfold colStep
  split
  · exact ⟨hs, hg, hsl⟩
  · split
    · exact ⟨hs, hg, hsl⟩
    · split
      · exact ⟨hs, hg, hsl⟩
      · dsimp only
        split
        · rename_i pv v rest hcond
          refine ⟨insertSlice_sorted hs, ?_, ?_⟩
          · exact insertSlice_gt hcond.2 hg
          · exact insertSlice_slots (of_decide_eq_true hcond.1) rfl hsl
        · exact ⟨hs, hg, hsl⟩

theorem foldl_roundStep_frame :
    ∀ (is : List Nat) (acc : CState × Bool),
      (is.foldl roundStep acc).1.oldest_key = acc.1.oldest_key ∧
      (is.foldl roundStep acc).1.completed = acc.1.completed ∧
      (is.foldl roundStep acc).1.nOverflow = acc.1.nOverflow ∧
      (is.foldl roundStep acc).1.pvs.length = acc.1.pvs.length ∧
      (is.foldl roundStep acc).1.events.length ≤ acc.1.events.length + is.length := by
  intro is
  induction is with
  | nil =>
    intro acc
    exact ⟨rfl, rfl, rfl, rfl, by simp⟩
  | cons j tl ih =>
    intro acc
    rw [List.foldl_cons]
    obtain ⟨h1, h2, h3, h4, h5⟩ := ih (roundStep acc j)
    obtain ⟨g1, g2, g3, g4, g5⟩ := colStep_frame acc.1 j
    refine ⟨h1.trans g1, h2.trans g2, h3.trans g3, h4.trans g4, ?_⟩
    calc (tl.foldl roundStep (roundStep acc j)).1.events.length
        ≤ (roundStep acc j).1.events.length + tl.length := h5
      _ ≤ acc.1.events.length + 1 + tl.length := by
          exact Nat.add_le_add_right g5 tl.length
      _ = acc.1.events.length + (tl.length + 1) := by omega

theorem foldl_roundStep_inv :
    ∀ (is : List Nat) (acc : CState × Bool),
      Inv acc.1 → Inv (is.foldl roundStep acc).1 := by
  intro is
  induction is with
  | nil => intro acc h; exact h
  | cons j tl ih =>
    intro acc h
    rw [List.foldl_cons]
    exact ih (roundStep acc j) (colStep_inv acc.1 j h)

theorem dequeueRound_frame (st : CState) :
    (dequeueRound st).1.oldest_key = st.oldest_key ∧
    (dequeueRound st).1.completed = st.completed ∧
    (dequeueRound st).1.nOverflow = st.nOverflow ∧
    (dequeueRound st).1.pvs.length = st.pvs.length ∧
    (dequeueRound st).1.events.length ≤ st.events.length + st.pvs.length := by
  have h := foldl_roundStep_frame (List.range st.pvs.length) (st, true)
  simpa [dequeueRound] using h

theorem dequeueRound_inv (st : CState) (h : Inv st) : Inv (dequeueRound st).1 :=
  foldl_roundStep_inv (List.range st.pvs.length) (st, true) h

theorem dequeueLoop_frame (maxEvents : Nat) :
    ∀ (fuel : Nat) (st : CState) (nothing : Bool),
      (dequeueLoop maxEvents fuel st nothing).1.oldest_key = st.oldest_key ∧
      (dequeueLoop maxEvents fuel st nothing).1.completed = st.completed ∧
      (dequeueLoop maxEvents fuel st nothing).1.nOverflow = st.nOverflow ∧
      (dequeueLoop maxEvents fuel st nothing).1.pvs.length = st.pvs.length := by
  intro fuel
  induction fuel with
  | zero => intro st nothing; exact ⟨rfl, rfl, rfl, rfl⟩
  | succ n ih =>
    intro st nothing
    unfold dequeueLoop
    split
    · obtain ⟨h1, h2, h3, h4⟩ := ih (dequeueRound st).1 (dequeueRound st).2
      obtain ⟨g1, g2, g3, g4, _⟩ := dequeueRound_frame st
      exact ⟨h1.trans g1, h2.trans g2, h3.trans g3, h4.trans g4⟩
    · exact ⟨rfl, rfl, rfl, rfl⟩

theorem dequeueLoop_inv (maxEvents : Nat) :
    ∀ (fuel : Nat) (st : CState) (nothing : Bool),
      Inv st → Inv (dequeueLoop maxEvents fuel st nothing).1 := by
  intro fuel
  induction fuel with
  | zero => intro st nothing h; exact h
  | succ n ih =>
    intro st nothing h
    unfold dequeueLoop
    split
    · exact ih (dequeueRound st).1 (dequeueRound st).2 (dequeueRound_inv st h)
    · exact h

theorem process_dequeue_frame (maxEvents : Nat) (st : CState) :
    (process_dequeue maxEvents st).oldest_key = st.oldest_key ∧
    (process_dequeue maxEvents st).completed = st.completed ∧
    (process_dequeue maxEvents st).events =
      (dequeueLoop maxEvents (totalQueue st + 1) st false).1.events := by
  unfold process_dequeue
  obtain ⟨h1, h2, h3, h4⟩ := dequeueLoop_frame maxEvents (totalQueue st + 1) st false
  dsimp only
  split
  · exact ⟨h1, h2, rfl⟩
  · exact ⟨h1, h2, rfl⟩

theorem process_dequeue_inv (maxEvents : Nat) (st : CState) (h : Inv st) :
    Inv (process_dequeue maxEvents st) := by
  unfold process_dequeue
  have h2 := dequeueLoop_inv maxEvents (totalQueue st + 1) st false h
  obtain ⟨hs, hg, hsl⟩ := h2
  dsimp only
  split
  · exact ⟨hs, hg, hsl⟩
  · exact ⟨hs, hg, hsl⟩

theorem applyEnv_frame (e : EnvIn) (st : CState) :
    (applyEnv e st).oldest_key = st.oldest_key ∧
    (applyEnv e st).completed = st.completed ∧
    (applyEnv e st).events = st.events ∧
    (applyEnv e st).pvs.length = st.pvs.length := by
  refine ⟨rfl, rfl, rfl, ?_⟩
  simp [applyEnv]

theorem applyEnv_inv (e : EnvIn) (st : CState) (h : Inv st) : Inv (applyEnv e st) := h

/-! ## Lemmas: expire/emit phase -/

theorem scanFlush_le (pvs : List PV) (nk ma total : Nat) :
    ∀ l : List (Nat × Slice), scanFlush pvs nk ma total l ≤ Nat.max total l.length := by
  intro l
  induction l with
  | nil => simp [scanFlush]
  | cons hd tl ih =>
    obtain ⟨k, sl⟩ := hd
    simp only [scanFlush]
    split
    · exact Nat.le_max_left _ _
    · split
      · calc scanFlush pvs nk ma total tl ≤ Nat.max total tl.length := ih
          _ ≤ Nat.max total (tl.length + 1) := by
              exact max_le_max le_rfl (Nat.le_succ _)
          _ = Nat.max total ((k, sl) :: tl).length := by simp
      · calc tl.length ≤ Nat.max total ((k, sl) :: tl).length := by
              simp only [List.length_cons]
              exact le_trans (Nat.le_succ _) (Nat.le_max_right _ _)

theorem getLast?_memX : ∀ {α : Type} {l : List α} {a : α}, l.getLast? = some a → a ∈ l := by
  intro α l
  induction l with
  | nil => intro a h; simp at h
  | cons hd tl ih =>
    intro a h
    cases tl with
    | nil =>
      simp only [List.getLast?_singleton, Option.some.injEq] at h
      simp [h]
    | cons hd2 tl2 =>
      rw [List.getLast?_cons_cons] at h
      exact List.mem_cons_of_mem _ (ih h)

theorem sorted_le_last :
    ∀ {l : List (Nat × Slice)} {a : Nat × Slice},
      l.Pairwise (fun x y => x.1 < y.1) → l.getLast? = some a → ∀ b ∈ l, b.1 ≤ a.1 := by
  intro l
  induction l with
  | nil => intro a _ h; simp at h
  | cons hd tl ih =>
    intro a hp hl b hb
    rw [List.pairwise_cons] at hp
    cases tl with
    | nil =>
      simp only [List.getLast?_singleton, Option.some.injEq] at hl
      rcases List.mem_singleton.mp hb with rfl
      rw [hl]
    | cons hd2 tl2 =>
      rw [List.getLast?_cons_cons] at hl
      rcases List.mem_cons.mp hb with rfl | hb2
      · have ha : a ∈ hd2 :: tl2 := getLast?_memX hl
        exact le_of_lt (hp.1 a ha)
      · exact ih hp.2 hl b hb2

theorem pairwise_take_drop {l : List (Nat × Slice)} {n : Nat}
    (h : l.Pairwise (fun x y => x.1 < y.1)) :
    ∀ a ∈ l.take n, ∀ b ∈ l.drop n, a.1 < b.1 := by
  have h2 : (l.take n ++ l.drop n).Pairwise (fun x y => x.1 < y.1) := by
    rw [List.take_append_drop]
    exact h
  exact (List.pairwise_append.mp h2).2.2

theorem process_test_facts (now_key max_age : Nat) (st : CState) (h : Inv st) :
    Inv (process_test now_key max_age st) ∧
    st.oldest_key ≤ (process_test now_key max_age st).oldest_key ∧
    ((process_test now_key max_age st).completed.map Prod.fst).Pairwise (· < ·) ∧
    (∀ e ∈ (process_test now_key max_age st).completed,
      st.oldest_key < e.1 ∧ e.1 ≤ (process_test now_key max_age st).oldest_key) ∧
    (∀ e ∈ (process_test now_key max_age st).completed,
      ∀ ov ∈ e.2, slotOk e.1 ov = true) := by
  obtain ⟨hs, hg, hsl⟩ := h
  unfold process_test
  dsimp only
  set fc := scanFlush st.pvs now_key max_age st.events.length st.events.reverse with hfc
  set emitted := st.events.take fc with hemit
  set remaining := st.events.drop fc with hrem
  have hemit_sorted : emitted.Pairwise (fun x y => x.1 < y.1) :=
    hs.sublist (List.take_sublist fc st.events)
  have hemit_sub : ∀ e ∈ emitted, e ∈ st.events := fun e he => List.take_subset fc st.events he
  have hrem_sub : ∀ e ∈ remaining, e ∈ st.events := fun e he => List.drop_subset fc st.events he
  have hcross : ∀ a ∈ emitted, ∀ b ∈ remaining, a.1 < b.1 := pairwise_take_drop hs
  -- the new oldest key and its properties
  rcases hlast : emitted.getLast? with _ | e0
  · -- nothing emitted: emitted = []
    have hempty : emitted = [] := List.getLast?_eq_none_iff.mp hlast
    dsimp only
    rw [hempty]
    refine ⟨⟨?_, ?_, ?_⟩, le_rfl, by simp, by simp, by simp⟩
    · exact (hs.sublist (List.drop_sublist fc st.events)).sublist
        (List.drop_sublist _ remaining)
    · intro e he
      exact hg e (hrem_sub e (List.drop_subset _ remaining he))
    · intro e he
      exact hsl e (hrem_sub e (List.drop_subset _ remaining he))
  · dsimp only
    have he0 : e0 ∈ emitted := getLast?_memX hlast
    have hok_le : st.oldest_key < e0.1 := hg e0 (hemit_sub e0 he0)
    have hle_last : ∀ b ∈ emitted, b.1 ≤ e0.1 := sorted_le_last hemit_sorted hlast
    refine ⟨⟨?_, ?_, ?_⟩, le_of_lt hok_le, ?_, ?_, ?_⟩
    · exact (hs.sublist (List.drop_sublist fc st.events)).sublist
        (List.drop_sublist _ remaining)
    · intro e he
      exact hcross e0 he0 e (List.drop_subset _ remaining he)
    · intro e he
      exact hsl e (hrem_sub e (List.drop_subset _ remaining he))
    · exact (List.pairwise_map).mpr hemit_sorted
    · intro e he
      exact ⟨hg e (hemit_sub e he), hle_last e he⟩
    · intro e he
      exact hsl e (hemit_sub e he)

theorem process_test_retention (now_key max_age : Nat) (st : CState) :
    (process_test now_key max_age st).events.length ≤ 4 ∧
    (process_test now_key max_age st).nOverflow =
      st.nOverflow + (st.events.length - (process_test now_key max_age st).completed.length - 4) := by
  unfold process_test
  dsimp only
  set fc := scanFlush st.pvs now_key max_age st.events.length st.events.reverse with hfc
  have hle : fc ≤ st.events.length := by
    have := scanFlush_le st.pvs now_key max_age st.events.length st.events.reverse
    simpa using this
  constructor
  · simp only [List.length_drop]
    omega
  · simp only [List.length_take, List.length_drop]
    omega

/-! ## Lemmas: whole iterations and traces -/

theorem iterate_facts (st : CState) (e : EnvIn) (h : Inv st) :
    Inv (iterate st e) ∧
    st.oldest_key ≤ (iterate st e).oldest_key ∧
    ((iterate st e).completed.map Prod.fst).Pairwise (· < ·) ∧
    (∀ en ∈ (iterate st e).completed,
      st.oldest_key < en.1 ∧ en.1 ≤ (iterate st e).oldest_key) ∧
    (∀ en ∈ (iterate st e).completed, ∀ ov ∈ en.2, slotOk en.1 ov = true) := by
  have h1 : Inv (process_dequeue e.maxEvents (applyEnv e st)) :=
    process_dequeue_inv _ _ (applyEnv_inv e st h)
  have hok : (process_dequeue e.maxEvents (applyEnv e st)).oldest_key = st.oldest_key :=
    (process_dequeue_frame e.maxEvents (applyEnv e st)).1
  have hfacts := process_test_facts e.now_key e.max_age _ h1
  rw [hok] at hfacts
  exact hfacts

theorem stateBefore_zero (st : CState) (es : List EnvIn) : stateBefore st es 0 = st := rfl

theorem stateBefore_cons_succ (st : CState) (e : EnvIn) (tl : List EnvIn) (m : Nat) :
    stateBefore st (e :: tl) (m + 1) = stateBefore (iterate st e) tl m := by
  simp [stateBefore]

theorem stateBefore_succ :
    ∀ (es : List EnvIn) (st : CState) (n : Nat) (hn : n < es.length),
      stateBefore st es (n + 1) = iterate (stateBefore st es n) (es.get ⟨n, hn⟩) := by
  intro es
  induction es with
  | nil => intro st n hn; simp at hn
  | cons e tl ih =>
    intro st n hn
    cases n with
    | zero => simp [stateBefore]
    | succ m =>
      rw [stateBefore_cons_succ, ih (iterate st e) m (by simpa using hn),
        stateBefore_cons_succ]
      rfl

theorem trace_inv :
    ∀ (es : List EnvIn) (st : CState), Inv st → ∀ n, Inv (stateBefore st es n) := by
  intro es
  induction es with
  | nil =>
    intro st h n
    simpa [stateBefore] using h
  | cons e tl ih =>
    intro st h n
    cases n with
    | zero => exact h
    | succ m =>
      rw [stateBefore_cons_succ]
      exact ih (iterate st e) (iterate_facts st e h).1 m

theorem trace_mono_step :
    ∀ (es : List EnvIn) (st : CState), Inv st →
      ∀ n, (stateBefore st es n).oldest_key ≤ (stateBefore st es (n + 1)).oldest_key := by
  intro es
  induction es with
  | nil =>
    intro st h n
    simp [stateBefore]
  | cons e tl ih =>
    intro st h n
    cases n with
    | zero =>
      rw [stateBefore_cons_succ]
      cases tl.length.eq_zero_or_pos
      · exact (iterate_facts st e h).2.1
      · exact (iterate_facts st e h).2.1
    | succ m =>
      rw [stateBefore_cons_succ, stateBefore_cons_succ]
      exact ih (iterate st e) (iterate_facts st e h).1 m

theorem trace_mono_le (st : CState) (es : List EnvIn) (h : Inv st) :
    ∀ m n, m ≤ n →
      (stateBefore st es m).oldest_key ≤ (stateBefore st es n).oldest_key := by
  intro m n hmn
  induction n with
  | zero =>
    have hm : m = 0 := Nat.le_zero.mp hmn
    rw [hm]
  | succ k ih =>
    rcases Nat.lt_or_ge m (k + 1) with hlt | hge
    · exact le_trans (ih (Nat.lt_succ_iff.mp hlt)) (trace_mono_step es st h k)
    · have hm : m = k + 1 := le_antisymm hmn hge
      rw [hm]

theorem batch_facts (st : CState) (es : List EnvIn) (h : Inv st)
    (n : Nat) (hn : n < es.length) :
    ((batchAt st es n).map Prod.fst).Pairwise (· < ·) ∧
    (∀ en ∈ batchAt st es n,
      (stateBefore st es n).oldest_key < en.1 ∧
      en.1 ≤ (stateBefore st es (n + 1)).oldest_key) ∧
    (∀ en ∈ batchAt st es n, ∀ ov ∈ en.2, slotOk en.1 ov = true) := by
  have hi := trace_inv es st h n
  have hf := iterate_facts (stateBefore st es n) (es.get ⟨n, hn⟩) hi
  rw [← stateBefore_succ es st n hn] at hf
  exact ⟨hf.2.2.1, hf.2.2.2.1, hf.2.2.2.2⟩

theorem batch_disjoint (st : CState) (es : List EnvIn) (h : Inv st)
    (m n : Nat) (hm : m < n) (hn : n < es.length) :
    ∀ k ∈ (batchAt st es m).map Prod.fst, k ∉ (batchAt st es n).map Prod.fst := by
  intro k hkm hkn
  obtain ⟨em, hem, hkm2⟩ := List.mem_map.mp hkm
  obtain ⟨en, hen, hkn2⟩ := List.mem_map.mp hkn
  have hfm := (batch_facts st es h m (lt_trans hm hn)).2.1 em hem
  have hfn := (batch_facts st es h n hn).2.1 en hen
  have hmono := trace_mono_le st es h (m + 1) n hm
  omega

/-! ## Lemmas: queue push closed form, flush-all scan, loop length bounds -/

theorem dropOverGo_spec (limit : Nat) :
    ∀ (fuel : Nat) (vals : List DBRValue) (nOv : Nat),
      vals.length ≤ limit + fuel →
      dropOverGo limit fuel vals nOv = (vals.take limit, nOv + (vals.length - limit)) := by
  intro fuel
  induction fuel with
  | zero =>
    intro vals nOv h
    have h2 : vals.length ≤ limit := by omega
    simp [dropOverGo, List.take_of_length_le h2, Nat.sub_eq_zero_of_le h2]
  | succ n ih =>
    intro vals nOv h
    unfold dropOverGo
    split
    · rename_i hlt
      rw [ih vals.dropLast (nOv + 1) (by simp [List.length_dropLast]; omega)]
      have h3 : vals.dropLast.take limit = vals.take limit := by
        rw [List.dropLast_eq_take, List.take_take]
        congr 1
        omega
      rw [h3]
      simp only [List.length_dropLast]
      congr 1
      omega
    · rename_i hge
      have h2 : vals.length ≤ limit := by omega
      simp [List.take_of_length_le h2, Nat.sub_eq_zero_of_le h2]

theorem Subscription_push_spec (st : SubState) (v : DBRValue) :
    (Subscription_push st v).values = st.values.take st.limit ++ [v] ∧
    (Subscription_push st v).nOverflows = st.nOverflows + (st.values.length - st.limit) := by
  unfold Subscription_push dropOver
  rw [dropOverGo_spec st.limit st.values.length st.values st.nOverflows (by omega)]
  exact ⟨rfl, rfl⟩

theorem scanFlush_flushAll (pvs : List PV) (nk ma total k : Nat) (sl : Slice)
    (rest : List (Nat × Slice)) (haged : agedB nk k ma = true) :
    ∀ pre, (∀ e ∈ pre, isComplete pvs e.2 = true) →
      scanFlush pvs nk ma total (pre ++ (k, sl) :: rest) = total := by
  intro pre
  induction pre with
  | nil =>
    intro _
    simp [scanFlush, haged]
  | cons e pre2 ih =>
    intro hc
    obtain ⟨k2, sl2⟩ := e
    simp only [List.cons_append, scanFlush]
    split
    · rfl
    · rw [if_pos (hc (k2, sl2) (List.mem_cons_self _ _))]
      show scanFlush pvs nk ma total (pre2 ++ (k, sl) :: rest) = total
      exact ih fun e2 he2 => hc e2 (List.mem_cons_of_mem _ he2)

theorem dequeueLoop_len_bound (maxE : Nat) :
    ∀ (fuel : Nat) (st : CState) (nothing : Bool),
      st.events.length ≤ maxE + st.pvs.length →
      (dequeueLoop maxE fuel st nothing).1.events.length ≤ maxE + st.pvs.length := by
  intro fuel
  induction fuel with
  | zero => intro st nothing h; exact h
  | succ n ih =>
    intro st nothing h
    unfold dequeueLoop
    dsimp only
    split
    · rename_i hguard
      obtain ⟨g1, g2, g3, g4, g5⟩ := dequeueRound_frame st
      have hb : (dequeueRound st).1.events.length ≤ maxE + (dequeueRound st).1.pvs.length := by
        rw [g4]
        omega
      have := ih (dequeueRound st).1 (dequeueRound st).2 hb
      have hlen := (dequeueLoop_frame maxE n (dequeueRound st).1 (dequeueRound st).2).2.2.2
      omega
    · exact h

theorem roundPrefix_len_bound (j : Nat) (st : CState) :
    (roundPrefix j st).events.length ≤ st.events.length + st.pvs.length := by
  unfold roundPrefix
  obtain ⟨h1, h2, h3, h4, h5⟩ := foldl_roundStep_frame ((List.range st.pvs.length).take j) (st, true)
  dsimp only at h5
  have hlen : ((List.range st.pvs.length).take j).length ≤ st.pvs.length := by
    simp only [List.length_take, List.length_range]
    omega
  omega

/-! ## Claim theorems -/

/-- C1: Across the lifetime of one Collector the keys of emitted slices
are globally strictly increasing: within every batch delivered via
`slices(batch)` the keys are strictly increasing and every key is
strictly greater than the `oldest_key` value before that batch (hence the
`assert(cur->first > oldest_key)` at emit always holds), `oldest_key` is
monotone non-decreasing across iterations, and no key is delivered in two
batches. -/
theorem collector_emission_strictly_monotone (st : CState) (es : List EnvIn)
    (h : Inv st) :
    (∀ n, n < es.length →
      ((batchAt st es n).map Prod.fst).Pairwise (· < ·) ∧
      ∀ k ∈ (batchAt st es n).map Prod.fst, (stateBefore st es n).oldest_key < k) ∧
    (∀ n, (stateBefore st es n).oldest_key ≤ (stateBefore st es (n + 1)).oldest_key) ∧
    (∀ m n, m < n → n < es.length →
      ∀ k ∈ (batchAt st es m).map Prod.fst, k ∉ (batchAt st es n).map Prod.fst) := by
  refine ⟨?_, trace_mono_step es st h, fun m n hm hn => batch_disjoint st es h m n hm hn⟩
  intro n hn
  have hf := batch_facts st es h n hn
  refine ⟨hf.1, fun k hk => ?_⟩
  obtain ⟨en, hen, hkeq⟩ := List.mem_map.mp hk
  rw [← hkeq]
  exact (hf.2.1 en hen).1

/-- Witness for C1 at the concrete two-column scenario run. -/
theorem collector_emission_strictly_monotone_witness :
    Inv twoColInit ∧
    ((batchAt twoColInit [twoColEnv] 0).map Prod.fst).Pairwise (· < ·) :=
  ⟨by decide,
   ((collector_emission_strictly_monotone twoColInit [twoColEnv] (by decide)).1 0
     (by decide)).1⟩

/-- C7: A dequeued connected value (`sevr ≤ 3`) whose key is at most
`oldest_key` is discarded without touching the pending map, `oldest_key`
or the completed batch; and no slice with a key at most `oldest_key` is
ever emitted retroactively in any later iteration. -/
theorem late_value_discarded :
    (∀ (st : CState) (i : Nat) (pv : PV) (v : DBRValue) (rest : List DBRValue),
      st.pvs[i]? = some pv → pv.queue = v :: rest → v.sevr ≤ 3 →
      keyOf v ≤ st.oldest_key →
      (colStep st i).1.events = st.events ∧
      (colStep st i).1.oldest_key = st.oldest_key ∧
      (colStep st i).1.completed = st.completed) ∧
    (∀ (st : CState) (es : List EnvIn), Inv st →
      ∀ key, key ≤ st.oldest_key →
        ∀ n, n < es.length → key ∉ (batchAt st es n).map Prod.fst) := by
  constructor
  · intro st i pv v rest hpv hq hsevr hkey
    simp only [colStep, hpv, hq]
    split
    · exact ⟨rfl, rfl, rfl⟩
    · split
      · rename_i hcond
        exact absurd hcond.2 (by omega)
      · exact ⟨rfl, rfl, rfl⟩
  · intro st es h key hkey n hn hmem
    obtain ⟨en, hen, hkeq⟩ := List.mem_map.mp hmem
    have h1 := (batch_facts st es h n hn).2.1 en hen
    have h2 := trace_mono_le st es h 0 n (Nat.zero_le n)
    rw [stateBefore_zero] at h2
    rw [← hkeq] at hkey
    omega

/-- Witness for C7 at the concrete late-arrival fixture (key 7 arriving
after `oldest_key` reached 100). -/
theorem late_value_discarded_witness :
    ((colStep lateState 0).1.events = lateState.events ∧
     (colStep lateState 0).1.oldest_key = lateState.oldest_key ∧
     (colStep lateState 0).1.completed = lateState.completed) ∧
    7 ∉ (batchAt lateState [lateEnv] 0).map Prod.fst :=
  ⟨late_value_discarded.1 lateState 0
      { ready := true, connected := true, queue := [lateVal] } lateVal []
      (by decide) (by decide) (by decide) (by decide),
   late_value_discarded.2 lateState [lateEnv] (by decide) 7 (by decide) 0 (by decide)⟩

/-- C10: every valid slot of every slice of every delivered batch holds a
value with severity at most 3 whose timestamp key equals the slice's
key. -/
theorem delivered_slots_severity_and_key (st : CState) (es : List EnvIn)
    (h : Inv st) (n : Nat) (hn : n < es.length) :
    ∀ en ∈ batchAt st es n, ∀ ov ∈ en.2, ∀ x, ov = some x →
      x.sevr ≤ 3 ∧ keyOf x = en.1 := by
  intro en hen ov hov x hx
  have hs := (batch_facts st es h n hn).2.2 en hen ov hov
  rw [hx] at hs
  simp only [slotOk, Bool.and_eq_true, decide_eq_true_eq] at hs
  exact hs

/-- Witness for C10 at the first slice of the concrete two-column
scenario run. -/
theorem delivered_slots_severity_and_key_witness :
    fooT0.sevr ≤ 3 ∧ keyOf fooT0 = keyOf fooT0 :=
  delivered_slots_severity_and_key twoColInit [twoColEnv] (by decide) 0 (by decide)
    (keyOf fooT0, [some fooT0, none]) (by decide) (some fooT0) (by decide) fooT0 rfl

/-- C4: a slice is complete exactly when every column is either currently
disconnected or has its slot present; and in a two-column run where the
second column has never connected, values pushed only on the first column
at T0 and T1 yield two emitted slices, each with the first column present
and the second column's slot absent. -/
theorem slice_complete_iff_and_partial_scenario :
    (∀ (pvs : List PV) (sl : Slice),
      isComplete pvs sl = true ↔
        ∀ i, i < pvs.length →
          (pvs.getD i { ready := false, connected := false, queue := [] }).connected = false ∨
          (sl.getD i none).isSome = true) ∧
    (iterate twoColInit twoColEnv).completed =
      [(keyOf fooT0, [some fooT0, none]), (keyOf fooT1, [some fooT1, none])] := by
  constructor
  · intro pvs sl
    simp only [isComplete, List.all_eq_true, List.mem_range, Bool.or_eq_true,
      Bool.not_eq_true']
  · decide

/-- Witness for C4's completeness characterisation at a concrete slice. -/
theorem slice_complete_iff_and_partial_scenario_witness :
    isComplete agedState.pvs freshComplete.2 = true :=
  (slice_complete_iff_and_partial_scenario.1 agedState.pvs freshComplete.2).mpr
    (by decide)

/-- C5: during the dequeue phase the pending map never exceeds
`maxEvents + ncols` entries, where `maxEvents = clamp(prod, 10, 1000)` is
computed from the event-rate/flush-period product; and every expire/emit
phase leaves at most 4 pending slices, incrementing `nOverflow` once per
slice dropped by that cap. -/
theorem pending_map_bounded (prod maxE : Nat)
    (hmax : maxE = Nat.max 10 (Nat.min prod 1000))
    (st : CState) (hinit : st.events.length ≤ maxE) :
    (∀ k, (dequeueLoop maxE k st false).1.events.length ≤ maxE + st.pvs.length) ∧
    (∀ k j, (dequeueLoop maxE k st false).1.events.length < maxE →
      (roundPrefix j (dequeueLoop maxE k st false).1).events.length ≤
        maxE + st.pvs.length) ∧
    (∀ (st1 : CState) (now_key max_age : Nat),
      (process_test now_key max_age st1).events.length ≤ 4 ∧
      (process_test now_key max_age st1).nOverflow =
        st1.nOverflow +
          (st1.events.length - (process_test now_key max_age st1).completed.length - 4)) := by
  refine ⟨?_, ?_, fun st1 now_key max_age => process_test_retention now_key max_age st1⟩
  · intro k
    exact dequeueLoop_len_bound maxE k st false (by omega)
  · intro k j hlt
    have hb := roundPrefix_len_bound j (dequeueLoop maxE k st false).1
    have hp := (dequeueLoop_frame maxE k st false).2.2.2
    omega

/-- Witness for C5 at the default tunables (`eventRate*flushPeriod = 40`)
and the concrete aged fixture. -/
theorem pending_map_bounded_witness :
    (40 : Nat) = Nat.max 10 (Nat.min 40 1000) ∧
    (process_test (keyOf fooT1 + 5) (2 * 2 ^ 32 + 500000000) agedState).events.length ≤ 4 :=
  ⟨by decide,
   ((pending_map_bounded 40 40 (by decide) twoColInit (by decide)).2.2 agedState
     (keyOf fooT1 + 5) (2 * 2 ^ 32 + 500000000)).1⟩

/-- C6: in an expire/emit phase, if some pending slice is age-expired and
every newer pending slice is complete (so the reverse scan reaches the
aged slice before any partial one), then that slice and every older one
are emitted regardless of completeness and nothing stays pending. -/
theorem age_expired_slice_forces_flush (now_key max_age : Nat) (st : CState)
    (older newer : List (Nat × Slice)) (k : Nat) (sl : Slice)
    (hsplit : st.events = older ++ (k, sl) :: newer)
    (haged : agedB now_key k max_age = true)
    (hcomplete : ∀ en ∈ newer, isComplete st.pvs en.2 = true) :
    (process_test now_key max_age st).completed = st.events ∧
    (process_test now_key max_age st).events = [] := by
  have hfc : scanFlush st.pvs now_key max_age st.events.length st.events.reverse =
      st.events.length := by
    have hr : st.events.reverse = newer.reverse ++ (k, sl) :: older.reverse := by
      rw [hsplit]
      simp
    rw [hr]
    exact scanFlush_flushAll st.pvs now_key max_age st.events.length k sl
      older.reverse haged newer.reverse
      (fun e he => hcomplete e (List.mem_reverse.mp he))
  unfold process_test
  rw [hfc]
  simp [List.take_length, List.drop_length]

/-- Witness for C6 at the concrete fixture: an aged partial slice below a
fresh complete one; both are flushed. -/
theorem age_expired_slice_forces_flush_witness :
    agedState.events = [] ++ agedPartial :: [freshComplete] ∧
    (process_test (keyOf fooT1 + 5) (2 * 2 ^ 32 + 500000000) agedState).completed =
      agedState.events ∧
    (process_test (keyOf fooT1 + 5) (2 * 2 ^ 32 + 500000000) agedState).events = [] := by
  refine ⟨by decide, ?_⟩
  exact age_expired_slice_forces_flush (keyOf fooT1 + 5) (2 * 2 ^ 32 + 500000000)
    agedState [] [freshComplete] agedPartial.1 agedPartial.2 (by decide) (by decide)
    (by decide)

/-- C2 (refuting the claimed overflow policy): `Subscription::_push` pops
from the BACK (dropping the newest retained element, not the oldest) and
only while `size > limit`, so a push onto a full queue grows it to
`limit + 1`; with limit 4, pushing the values 1..10 leaves the queue
`[1, 2, 3, 4, 10]` of length 5 with `nOverflows = 5`, retaining the four
OLDEST values plus the newest — not the spec's length 4, `nOverflows = 6`
and the four newest. -/
theorem subscription_push_keeps_oldest :
    (∀ (st : SubState) (v : DBRValue),
      (Subscription_push st v).values = st.values.take st.limit ++ [v] ∧
      (Subscription_push st v).nOverflows =
        st.nOverflows + (st.values.length - st.limit)) ∧
    (pushAll sub4 pushVals).values = [mkV 1, mkV 2, mkV 3, mkV 4, mkV 10] ∧
    (pushAll sub4 pushVals).values.length = 5 ∧
    (pushAll sub4 pushVals).nOverflows = 5 :=
  ⟨Subscription_push_spec, by decide, by decide, by decide⟩

/-- C9 (refuting the byte accounting): `Subscription::onEvent` increments
`nUpdates` but never adds anything to `nUpdateBytes`; for the concrete
scalar double update the counter that the status table later snapshots
stays 0 although `sizeof(elem) * count = 8`. -/
theorem onEvent_counts_updates_not_bytes :
    (∀ (sd ad : Nat) (st : SubState) (u : CAUpdate),
      (Subscription_onEvent sd ad st u).nUpdates = st.nUpdates + 1 ∧
      (Subscription_onEvent sd ad st u).nUpdateBytes = st.nUpdateBytes) ∧
    (Subscription_onEvent 130 15 subFresh dblUpdate).nUpdates = 1 ∧
    (Subscription_onEvent 130 15 subFresh dblUpdate).nUpdateBytes = 0 ∧
    elemSize dblUpdate.ftype * dblUpdate.count = 8 :=
  ⟨fun sd ad st u => ⟨rfl, rfl⟩, by decide, by decide, by decide⟩

/-- C8: a successful scalar copy clears `last`, so the next row with an
absent cell gets the column type's default (NaN for float/double, 0 for
the integer types) instead of the previous value; a successful array copy
retains `last`, so the next row with an absent cell is backfilled with
the previous array. -/
theorem copier_backfill_policy :
    (∀ (c : RColumn) (coln kA kB : Nat) (slA slB : Slice) (v : DBRValue) (a : Elem),
      slA.getD coln none = some v → v.sevr ≤ 3 → v.count = 1 → v.ftype = c.ftype →
      v.buffer = [a] → slB.getD coln none = none →
      (scalarCopy c coln [(kA, slA), (kB, slB)]).2.1 =
        some (.scalars [a, default_value c.ftype]) ∧
      (scalarCopy c coln [(kA, slA), (kB, slB)]).1.last = none) ∧
    (∀ (c : RColumn) (coln kA kB : Nat) (slA slB : Slice) (v : DBRValue),
      slA.getD coln none = some v → v.sevr ≤ 3 → v.ftype = c.ftype →
      slB.getD coln none = none →
      (arrayCopy c coln [(kA, slA), (kB, slB)]).2.1 =
        some (.unions [some v.buffer, some v.buffer]) ∧
      (arrayCopy c coln [(kA, slA), (kB, slB)]).1.last = some v) ∧
    default_value .pvDouble = .nan ∧ default_value .pvFloat = .nan ∧
    default_value .pvInt = .int 0 := by
  refine ⟨?_, ?_, rfl, rfl, rfl⟩
  · intro c coln kA kB slA slB v a hA hsevr hcnt hty hbuf hB
    have hns : ¬(3 < v.sevr) := by omega
    rw [List.getD_eq_getElem?_getD] at hA hB
    simp [scalarCopy, scalarCopyStep, List.enum, hA, hB, hns, hcnt, hty, hbuf]
  · intro c coln kA kB slA slB v hA hsevr hty hB
    have hns : ¬(3 < v.sevr) := by omega
    rw [List.getD_eq_getElem?_getD] at hA hB
    simp [arrayCopy, arrayCopyStep, List.enum, hA, hB, hns, hty]

/-- Witness for C8 at concrete scalar-double and int-array columns. -/
theorem copier_backfill_policy_witness :
    ((scalarCopy colDbl 0 [(10, [some (vDbl 7 1)]), (11, [none])]).2.1 =
      some (.scalars [.real 7, default_value colDbl.ftype]) ∧
     (scalarCopy colDbl 0 [(10, [some (vDbl 7 1)]), (11, [none])]).1.last = none) ∧
    ((arrayCopy colIntArr 0 [(10, [some (vIntArr 1)]), (11, [none])]).2.1 =
      some (.unions [some (vIntArr 1).buffer, some (vIntArr 1).buffer]) ∧
     (arrayCopy colIntArr 0 [(10, [some (vIntArr 1)]), (11, [none])]).1.last =
       some (vIntArr 1)) :=
  ⟨copier_backfill_policy.1 colDbl 0 10 11 [some (vDbl 7 1)] [none] (vDbl 7 1)
      (.real 7) rfl (by decide) rfl rfl rfl rfl,
   copier_backfill_policy.2.1 colIntArr 0 10 11 [some (vIntArr 1)] [none] (vIntArr 1)
      rfl (by decide) rfl rfl⟩

/-- C3 counterexample: in the `slices` call that detects the type
mismatch, the batch is still posted — `pv->post` runs unconditionally at
the end of the call, under the OLD schema, with the offending column not
marked changed.  The claim's "the transitional batch is not published" is
therefore false. -/
theorem receiver_posts_transitional_batch :
    rstate2.posts.length = rstate1.posts.length + 1 ∧
    rstate2.posts.getLast? = some
      { schema := rstate1.schema,
        sec := [631152005], nsec := [0],
        cols := [none, some (.scalars [.real 2])] } := by
  decide

/-- C3 amended: when a cell's element type or shape disagrees with the
column's current type/shape, the copier sets the global `retype` flag,
clears the column's `last` and aborts that column's per-batch copy (the
column's field is not replaced in that post); the transitional batch IS
still posted under the old schema, and at the start of the next `slices`
call the schema is rebuilt — the array column becoming a nested
union-array field — after which subsequent rows are published under the
new schema. -/
theorem receiver_retype_protocol :
    rstate2.retype = true ∧
    rstate2.columns.map (fun c => c.last) = [none, none] ∧
    rstate2.columns.map (fun c => (c.ftype, c.isarray)) =
      [(.pvInt, true), (.pvDouble, false)] ∧
    (rstate2.posts.getD 1 { schema := [], sec := [], nsec := [], cols := [] }).cols =
      [none, some (.scalars [.real 2])] ∧
    (rstate2.posts.getD 1 { schema := [], sec := [], nsec := [], cols := [] }).schema =
      [{ fname := "foo", ftype := .pvDouble, isarray := false },
       { fname := "bar", ftype := .pvDouble, isarray := false }] ∧
    rstate3.schema =
      [{ fname := "foo", ftype := .pvInt, isarray := true },
       { fname := "bar", ftype := .pvDouble, isarray := false }] ∧
    rstate3.retype = false ∧
    (rstate3.posts.getD 2 { schema := [], sec := [], nsec := [], cols := [] }).schema =
      rstate3.schema ∧
    (rstate3.posts.getD 2 { schema := [], sec := [], nsec := [], cols := [] }).cols =
      [some (.unions [some ((List.range 8).map fun z => .int z)]),
       some (.scalars [.real 4])] := by
  decide

end Bsas
